import Mathlib

/-!
Verification development for the libcamera V4L2 video-device core
(`src/libcamera/v4l2_videodevice.cpp`): the buffer cache
(`V4L2BufferCache`), buffer allocation and release, the queue/dequeue
state machine around `queueBuffer`/`streamOff`, and the format
negotiation codecs.  The C++ code is shallowly embedded: machine
integers become `Nat`/`Int`, `std::vector` becomes `List`, ioctl
results are passed in as parameters modelling the kernel's responses,
and assertion failures become `Option.none`.
-/

/-- One dmabuf plane of a frame buffer: the descriptor value (as
returned by `FileDescriptor::fd()`) and the byte length.  This is the
plane identity the buffer cache compares. -/
structure Plane where
  fd : Int
  length : Nat
deriving DecidableEq, Repr

/-- `FrameBuffer` as the cache sees it: an immutable list of planes. -/
structure FrameBuffer where
  planes : List Plane
deriving DecidableEq, Repr

/-- One cache entry: the `free` flag and the recorded plane identities
(`V4L2BufferCache::Entry`). -/
structure Entry where
  free : Bool
  planes : List Plane
deriving DecidableEq, Repr

/-- The default-constructed `Entry()`: free, with no recorded planes. -/
def Entry.default : Entry := ⟨true, []⟩

/-- `V4L2BufferCache`: the vector of entries and the miss counter. -/
structure V4L2BufferCache where
  cache : List Entry
  missCounter : Nat
deriving DecidableEq, Repr

/-- The `V4L2BufferCache(unsigned int numEntries)` constructor:
`numEntries` default entries, miss counter zero. -/
def V4L2BufferCache.ofCount (numEntries : Nat) : V4L2BufferCache :=
  ⟨List.replicate numEntries Entry.default, 0⟩

/-- The `V4L2BufferCache(const std::vector<std::unique_ptr<FrameBuffer>> &)`
constructor: one entry per buffer, built with `Entry(true, buffer->planes())`,
i.e. marked free with the buffer's planes recorded. -/
def V4L2BufferCache.ofBuffers (buffers : List FrameBuffer) : V4L2BufferCache :=
  ⟨buffers.map (fun b => ⟨true, b.planes⟩), 0⟩

/-- The scan loop of `V4L2BufferCache::get`: walks the entries in
increasing index order, skipping non-free entries, remembering in `use`
the first free index seen, and breaking with a hit when a free entry's
recorded planes equal the buffer's planes (`Entry::operator==`).
Returns the `hit` flag and the final `use` value (`none` models the
initial `-1`). -/
def scanLoop (ps : List Plane) : List Entry → Nat → Option Nat → Bool × Option Nat
  | [], _, use => (false, use)
  | e :: rest, idx, use =>
    if e.free then
      let use2 : Option Nat := match use with
        | none => some idx
        | some u => some u
      if e.planes = ps then (true, some idx)
      else scanLoop ps rest (idx + 1) use2
    else scanLoop ps rest (idx + 1) use

/-- `V4L2BufferCache::get(const FrameBuffer &)`: runs the scan, bumps
the miss counter when no hit was found, returns `-ENOENT` (= `-2`) when
no entry is free, and otherwise binds the chosen entry to the buffer's
planes (`cache_[use] = Entry(false, buffer)`) and returns its index. -/
def V4L2BufferCache.get (c : V4L2BufferCache) (b : FrameBuffer) :
    Int × V4L2BufferCache :=
  let r := scanLoop b.planes c.cache 0 none
  let mc := if r.1 then c.missCounter else c.missCounter + 1
  match r.2 with
  | none => (-2, ⟨c.cache, mc⟩)
  | some u => (Int.ofNat u, ⟨c.cache.set u ⟨false, b.planes⟩, mc⟩)

/-- Set the `free` flag of the entry at `index` to `true`, leaving its
recorded planes and every other entry unchanged
(`cache_[index].free = true`). -/
def setFree : List Entry → Nat → List Entry
  | [], _ => []
  | e :: rest, 0 => ⟨true, e.planes⟩ :: rest
  | e :: rest, n + 1 => e :: setFree rest n

/-- `V4L2BufferCache::put(unsigned int index)`: marks the entry free.
The out-of-range case fails the `ASSERT(index < cache_.size())` and is
modelled as `none`. -/
def V4L2BufferCache.put (c : V4L2BufferCache) (index : Nat) :
    Option V4L2BufferCache :=
  if index < c.cache.length then some ⟨setFree c.cache index, c.missCounter⟩
  else none

/-- Number of bound (non-free) entries of a cache. -/
def V4L2BufferCache.boundCount (c : V4L2BufferCache) : Nat :=
  (c.cache.filter (fun e => !e.free)).length

/-- First index of a list satisfying `p`, or `none`. -/
def firstIdx (p : Entry → Bool) : List Entry → Option Nat
  | [] => none
  | e :: rest =>
    if p e then some 0
    else (firstIdx p rest).map (· + 1)

/-- The hit test of the scan: the entry is free and its recorded planes
equal the buffer's planes. -/
def hitPred (ps : List Plane) (e : Entry) : Bool :=
  e.free && decide (e.planes = ps)

/-- The free test of the scan. -/
def freePred (e : Entry) : Bool := e.free

/-- `Option.or` written out, modelling `if (use < 0) use = index`. -/
def optOr (a b : Option Nat) : Option Nat :=
  match a with
  | some x => some x
  | none => b

theorem optOr_none_right (a : Option Nat) : optOr a none = a := by
  cases a <;> rfl

theorem optOr_assoc_left (a b c : Option Nat) :
    optOr (optOr a b) c = optOr a (optOr b c) := by
  cases a <;> rfl

/-- Characterisation of the scan loop: the hit flag and chosen index are
determined by the first hit index (if any), else the first free index,
else the incoming `use`. -/
theorem scanLoop_eq (ps : List Plane) (l : List Entry) (idx : Nat)
    (use : Option Nat) :
    scanLoop ps l idx use =
      match firstIdx (hitPred ps) l with
      | some i => (true, some (idx + i))
      | none => (false, optOr use ((firstIdx freePred l).map (idx + ·))) := by
  induction l generalizing idx use with
  | nil => simp [scanLoop, firstIdx, optOr_none_right]
  | cons e rest ih =>
    by_cases hf : e.free
    · by_cases hp : e.planes = ps
      · simp [scanLoop, hf, hp, firstIdx, hitPred]
      · have hhp : hitPred ps e = false := by
          simp [hitPred, hp]
        have hfp : freePred e = true := by simp [freePred, hf]
        have step : scanLoop ps (e :: rest) idx use =
            scanLoop ps rest (idx + 1) (optOr use (some idx)) := by
          cases use <;> simp [scanLoop, hf, hp, optOr]
        rw [step, ih]
        cases hfi : firstIdx (hitPred ps) rest with
        | some i =>
          simp [firstIdx, hhp, hfi, Nat.add_assoc, Nat.add_comm,
            Nat.add_left_comm]
        | none =>
          cases hfr : firstIdx freePred rest with
          | some j =>
            cases use <;>
              simp [firstIdx, hhp, hfp, hfi, hfr, optOr, Nat.add_assoc,
                Nat.add_comm, Nat.add_left_comm]
          | none =>
            cases use <;>
              simp [firstIdx, hhp, hfp, hfi, hfr, optOr]
    · have hhp : hitPred ps e = false := by simp [hitPred, hf]
      have hfp : freePred e = false := by simp [freePred, hf]
      have step : scanLoop ps (e :: rest) idx use =
          scanLoop ps rest (idx + 1) use := by
        simp [scanLoop, hf]
      rw [step, ih]
      cases hfi : firstIdx (hitPred ps) rest with
      | some i =>
        simp [firstIdx, hhp, hfi, Nat.add_assoc, Nat.add_comm,
          Nat.add_left_comm]
      | none =>
        cases hfr : firstIdx freePred rest with
        | some j =>
          cases use <;>
            simp [firstIdx, hhp, hfp, hfi, hfr, optOr, Nat.add_assoc,
              Nat.add_comm, Nat.add_left_comm]
        | none =>
          cases use <;> simp [firstIdx, hhp, hfp, hfi, hfr, optOr]

theorem firstIdx_eq_some_iff (p : Entry → Bool) (l : List Entry) (i : Nat) :
    firstIdx p l = some i ↔
      i < l.length ∧ p (l.getD i Entry.default) = true ∧
        ∀ j, j < i → p (l.getD j Entry.default) = false := by
  induction l generalizing i with
  | nil => simp [firstIdx]
  | cons e rest ih =>
    by_cases hp : p e
    · simp only [firstIdx, hp, if_true]
      constructor
      · rintro h
        cases h
        simp [hp]
      · rintro ⟨hlen, hi, hlt⟩
        cases i with
        | zero => rfl
        | succ n =>
          have := hlt 0 (Nat.succ_pos n)
          simp [List.getD] at this
          rw [this] at hp
          exact absurd hp (by simp)
    · simp only [firstIdx, hp, if_false]
      cases i with
      | zero =>
        simp only [List.length_cons]
        constructor
        · intro h
          simp at h
        · rintro ⟨_, hi, _⟩
          simp [List.getD] at hi
          rw [hi] at hp
          exact absurd hp (by simp)
      | succ n =>
        constructor
        · intro h
          have hr : firstIdx p rest = some n := by
            cases hfr : firstIdx p rest with
            | none => rw [hfr] at h; simp at h
            | some m =>
              rw [hfr] at h
              simp at h
              rw [h]
          rcases (ih n).mp hr with ⟨hlen, hn, hbelow⟩
          refine ⟨by simpa using Nat.succ_lt_succ hlen, by simpa [List.getD] using hn, ?_⟩
          intro j hj
          cases j with
          | zero => simpa [List.getD] using (by simpa using hp)
          | succ m =>
            have := hbelow m (by omega)
            simpa [List.getD] using this
        · rintro ⟨hlen, hn, hbelow⟩
          have hr : firstIdx p rest = some n := by
            refine (ih n).mpr ⟨by simpa using hlen, by simpa [List.getD] using hn, ?_⟩
            intro j hj
            have := hbelow (j + 1) (by omega)
            simpa [List.getD] using this
          rw [hr]
          rfl

theorem firstIdx_eq_none_iff (p : Entry → Bool) (l : List Entry) :
    firstIdx p l = none ↔
      ∀ j, j < l.length → p (l.getD j Entry.default) = false := by
  induction l with
  | nil => simp [firstIdx]
  | cons e rest ih =>
    by_cases hp : p e
    · simp only [firstIdx, hp, if_true]
      constructor
      · intro h; simp at h
      · intro h
        have := h 0 (by simp)
        simp [List.getD] at this
        rw [this] at hp
        exact absurd hp (by simp)
    · simp only [firstIdx, hp, if_false]
      constructor
      · intro h j hj
        cases j with
        | zero => simpa [List.getD] using (by simpa using hp)
        | succ m =>
          have hr : firstIdx p rest = none := by
            cases hfr : firstIdx p rest with
            | none => rfl
            | some k => rw [hfr] at h; simp at h
          have := ih.mp hr m (by simpa using Nat.lt_of_succ_lt_succ hj)
          simpa [List.getD] using this
      · intro h
        have hr : firstIdx p rest = none := by
          refine ih.mpr ?_
          intro j hj
          have := h (j + 1) (by simpa using Nat.succ_lt_succ hj)
          simpa [List.getD] using this
        rw [hr]
        rfl

/-- `get` in closed form: first hit index if any (miss counter kept),
else first free index (miss counter bumped), else `-ENOENT` (miss
counter bumped, entries untouched). -/
theorem V4L2BufferCache.get_eq (c : V4L2BufferCache) (b : FrameBuffer) :
    c.get b =
      match firstIdx (hitPred b.planes) c.cache with
      | some i =>
          (Int.ofNat i, ⟨c.cache.set i ⟨false, b.planes⟩, c.missCounter⟩)
      | none =>
          match firstIdx freePred c.cache with
          | some i =>
              (Int.ofNat i,
                ⟨c.cache.set i ⟨false, b.planes⟩, c.missCounter + 1⟩)
          | none => (-2, ⟨c.cache, c.missCounter + 1⟩) := by
  unfold V4L2BufferCache.get
  rw [scanLoop_eq]
  cases hfi : firstIdx (hitPred b.planes) c.cache with
  | some i => simp
  | none =>
    cases hfr : firstIdx freePred c.cache with
    | some j => simp [optOr]
    | none => simp [optOr]

/-- Index `i` is a cache hit for plane list `ps`: in range, free, and
with `ps` recorded. -/
def hitAt (c : V4L2BufferCache) (ps : List Plane) (i : Nat) : Prop :=
  i < c.cache.length ∧ (c.cache.getD i Entry.default).free = true ∧
    (c.cache.getD i Entry.default).planes = ps

/-- Index `i` is free: in range with the `free` flag set. -/
def freeAt (c : V4L2BufferCache) (i : Nat) : Prop :=
  i < c.cache.length ∧ (c.cache.getD i Entry.default).free = true

instance (c : V4L2BufferCache) (ps : List Plane) (i : Nat) :
    Decidable (hitAt c ps i) := by
  unfold hitAt; infer_instance

instance (c : V4L2BufferCache) (i : Nat) : Decidable (freeAt c i) := by
  unfold freeAt; infer_instance

theorem hitPred_getD (c : V4L2BufferCache) (ps : List Plane) (i : Nat) :
    hitPred ps (c.cache.getD i Entry.default) = true ↔
      ((c.cache.getD i Entry.default).free = true ∧
        (c.cache.getD i Entry.default).planes = ps) := by
  simp [hitPred]

theorem hitAt_of_firstIdx_arg (c : V4L2BufferCache) (ps : List Plane)
    (j : Nat) (hj : j < c.cache.length) (h : ¬ hitAt c ps j) :
    hitPred ps (c.cache.getD j Entry.default) = false := by
  rw [Bool.eq_false_iff]
  intro habs
  exact h ⟨hj, (hitPred_getD c ps j).mp habs⟩

/-- Claim C1.  `V4L2BufferCache::get` scans entries in increasing index
order.  If some free entry records exactly the buffer's planes, the
lowest such index is returned as a hit, the miss counter is unchanged,
and the entry is re-bound to the buffer's planes.  Otherwise, if some
entry is free, the lowest free index is returned and the miss counter is
incremented.  If no entry is free, `-ENOENT` (= `-2`) is returned and no
entry changes.  On every successful return the chosen entry becomes
bound (`free = false`) with the buffer's planes recorded. -/
theorem get_scan_spec (c : V4L2BufferCache) (b : FrameBuffer) :
    (∀ i, hitAt c b.planes i → (∀ j, j < i → ¬ hitAt c b.planes j) →
      c.get b =
        (Int.ofNat i, ⟨c.cache.set i ⟨false, b.planes⟩, c.missCounter⟩)) ∧
    ((∀ j, ¬ hitAt c b.planes j) →
      ∀ i, freeAt c i → (∀ j, j < i → ¬ freeAt c j) →
        c.get b =
          (Int.ofNat i,
            ⟨c.cache.set i ⟨false, b.planes⟩, c.missCounter + 1⟩)) ∧
    ((∀ j, ¬ freeAt c j) →
      c.get b = (-2, ⟨c.cache, c.missCounter + 1⟩)) := by
  refine ⟨?_, ?_, ?_⟩
  · intro i hi hleast
    have hfi : firstIdx (hitPred b.planes) c.cache = some i := by
      rw [firstIdx_eq_some_iff]
      refine ⟨hi.1, (hitPred_getD c b.planes i).mpr ⟨hi.2.1, hi.2.2⟩, ?_⟩
      intro j hj
      exact hitAt_of_firstIdx_arg c b.planes j (lt_trans hj hi.1) (hleast j hj)
    rw [V4L2BufferCache.get_eq, hfi]
  · intro hnohit i hi hleast
    have hfi : firstIdx (hitPred b.planes) c.cache = none := by
      rw [firstIdx_eq_none_iff]
      intro j hj
      exact hitAt_of_firstIdx_arg c b.planes j hj (hnohit j)
    have hfr : firstIdx freePred c.cache = some i := by
      rw [firstIdx_eq_some_iff]
      refine ⟨hi.1, hi.2, ?_⟩
      intro j hj
      rw [Bool.eq_false_iff]
      intro habs
      exact hleast j hj ⟨lt_trans hj hi.1, habs⟩
    rw [V4L2BufferCache.get_eq, hfi, hfr]
  · intro hnofree
    have hfr : firstIdx freePred c.cache = none := by
      rw [firstIdx_eq_none_iff]
      intro j hj
      rw [Bool.eq_false_iff]
      intro habs
      exact hnofree j ⟨hj, habs⟩
    have hfi : firstIdx (hitPred b.planes) c.cache = none := by
      rw [firstIdx_eq_none_iff]
      intro j hj
      rw [Bool.eq_false_iff]
      intro habs
      have hfree := ((hitPred_getD c b.planes j).mp habs).1
      exact hnofree j ⟨hj, hfree⟩
    rw [V4L2BufferCache.get_eq, hfi, hfr]

/-- Witness for C1 at a concrete cache: entry 0 is bound, entry 1 is a
free hit for the buffer, so `get` returns index 1 as a hit with the
miss counter unchanged and entry 1 re-bound. -/
theorem get_scan_spec_witness :
    hitAt ⟨[⟨false, []⟩, ⟨true, [⟨7, 64⟩]⟩], 5⟩ [⟨7, 64⟩] 1 ∧
    (V4L2BufferCache.get ⟨[⟨false, []⟩, ⟨true, [⟨7, 64⟩]⟩], 5⟩
        ⟨[⟨7, 64⟩]⟩) =
      (Int.ofNat 1, ⟨[⟨false, []⟩, ⟨false, [⟨7, 64⟩]⟩], 5⟩) :=
  ⟨by decide,
    (get_scan_spec ⟨[⟨false, []⟩, ⟨true, [⟨7, 64⟩]⟩], 5⟩ ⟨[⟨7, 64⟩]⟩).1 1
      (by decide) (by decide)⟩

theorem setFree_length (l : List Entry) (i : Nat) :
    (setFree l i).length = l.length := by
  induction l generalizing i with
  | nil => rfl
  | cons e rest ih =>
    cases i with
    | zero => rfl
    | succ n => simp [setFree, ih]

theorem setFree_getD_self (l : List Entry) (i : Nat) (h : i < l.length) :
    (setFree l i).getD i Entry.default =
      ⟨true, (l.getD i Entry.default).planes⟩ := by
  induction l generalizing i with
  | nil => simp at h
  | cons e rest ih =>
    cases i with
    | zero => simp [setFree, List.getD]
    | succ n =>
      have := ih n (by simpa using Nat.lt_of_succ_lt_succ h)
      simpa [setFree, List.getD] using this

theorem setFree_getD_other (l : List Entry) (i j : Nat) (h : j ≠ i) :
    (setFree l i).getD j Entry.default = l.getD j Entry.default := by
  induction l generalizing i j with
  | nil => cases i <;> rfl
  | cons e rest ih =>
    cases i with
    | zero =>
      cases j with
      | zero => exact absurd rfl h
      | succ m => simp [setFree, List.getD]
    | succ n =>
      cases j with
      | zero => simp [setFree, List.getD]
      | succ m =>
        have := ih n m (by omega)
        simpa [setFree, List.getD] using this

theorem setFree_idem (l : List Entry) (i : Nat) :
    setFree (setFree l i) i = setFree l i := by
  induction l generalizing i with
  | nil => rfl
  | cons e rest ih =>
    cases i with
    | zero => rfl
    | succ n => simp [setFree, ih]

theorem setFree_of_free (l : List Entry) (i : Nat)
    (h : (l.getD i Entry.default).free = true) : setFree l i = l := by
  induction l generalizing i with
  | nil => rfl
  | cons e rest ih =>
    cases i with
    | zero =>
      have he : e.free = true := by simpa [List.getD] using h
      simp only [setFree]
      cases e with
      | mk f ps =>
        simp only at he
        rw [he]
    | succ n =>
      have hr : (rest.getD n Entry.default).free = true := by
        simpa [List.getD] using h
      simp [setFree, ih n hr]

/-- Claim C10.  For an in-range index, `put` only sets that entry's
`free` flag to `true`, preserves its recorded planes and every other
entry and the miss counter; on an already-free index it is a silent
no-op (so `put` is idempotent); an out-of-range index fails the
assertion (modelled as `none`) and touches nothing. -/
theorem put_spec (c : V4L2BufferCache) (i : Nat) :
    (i < c.cache.length →
      c.put i = some ⟨setFree c.cache i, c.missCounter⟩ ∧
      (setFree c.cache i).getD i Entry.default =
        ⟨true, (c.cache.getD i Entry.default).planes⟩ ∧
      (∀ j, j ≠ i →
        (setFree c.cache i).getD j Entry.default =
          c.cache.getD j Entry.default) ∧
      V4L2BufferCache.put ⟨setFree c.cache i, c.missCounter⟩ i =
        some ⟨setFree c.cache i, c.missCounter⟩ ∧
      ((c.cache.getD i Entry.default).free = true →
        (⟨setFree c.cache i, c.missCounter⟩ : V4L2BufferCache) = c)) ∧
    (¬ i < c.cache.length → c.put i = none) := by
  constructor
  · intro h
    refine ⟨by simp [V4L2BufferCache.put, h], setFree_getD_self _ _ h,
      fun j hj => setFree_getD_other _ _ _ hj, ?_, ?_⟩
    · have hlen : i < (setFree c.cache i).length := by
        rw [setFree_length]; exact h
      simp [V4L2BufferCache.put, hlen, setFree_idem]
    · intro hfree
      rw [setFree_of_free _ _ hfree]
  · intro h
    simp [V4L2BufferCache.put, h]

/-- Witness for C10 at a one-entry bound cache: `put 0` frees the entry
keeping its planes and miss counter, and is idempotent. -/
theorem put_spec_witness :
    (0 < (V4L2BufferCache.mk [⟨false, [⟨4, 9⟩]⟩] 3).cache.length) ∧
    V4L2BufferCache.put ⟨[⟨false, [⟨4, 9⟩]⟩], 3⟩ 0 =
      some ⟨[⟨true, [⟨4, 9⟩]⟩], 3⟩ :=
  ⟨by decide,
    by
      have h := (put_spec ⟨[⟨false, [⟨4, 9⟩]⟩], 3⟩ 0).1 (by decide)
      have h1 := h.1
      have hs : setFree [⟨false, [⟨4, 9⟩]⟩] 0 = [⟨true, [⟨4, 9⟩]⟩] := rfl
      rw [hs] at h1
      exact h1⟩

/-- Counterexample to claim C3 as stated: the cache built by
`V4L2BufferCache(const std::vector<std::unique_ptr<FrameBuffer>> &)`
passes `true` as the `free` flag (`cache_.emplace_back(true, ...)`), so
its entries are free, not bound. -/
theorem ofBuffers_entry_not_bound :
    ¬ (((V4L2BufferCache.ofBuffers [⟨[⟨3, 7⟩]⟩]).cache.getD 0
          Entry.default).free = false) := by
  decide

/-- Claim C3 (amended).  A cache created from an exported buffer list is
pre-populated with every entry *free* and recording the corresponding
buffer's plane identity (a hot cache), whereas a cache created with a
bare count is pre-populated with every entry free and no recorded
identity. -/
theorem cache_constructors_spec (buffers : List FrameBuffer) (n : Nat) :
    (V4L2BufferCache.ofBuffers buffers).cache =
        buffers.map (fun b => ⟨true, b.planes⟩) ∧
      (V4L2BufferCache.ofBuffers buffers).missCounter = 0 ∧
      (V4L2BufferCache.ofCount n).cache =
        List.replicate n ⟨true, []⟩ ∧
      (V4L2BufferCache.ofCount n).missCounter = 0 :=
  ⟨rfl, rfl, rfl, rfl⟩

/-- One operation applied to a buffer cache. -/
inductive CacheOp where
  | get (b : FrameBuffer)
  | put (i : Nat)
deriving DecidableEq, Repr

/-- Run a sequence of cache operations, counting successful `get`s and
`put`s.  A failed `put` assertion aborts the run (`none`). -/
def runOps (c : V4L2BufferCache) (g p : Nat) :
    List CacheOp → Option (V4L2BufferCache × Nat × Nat)
  | [] => some (c, g, p)
  | CacheOp.get b :: rest =>
    runOps (c.get b).2 (if 0 ≤ (c.get b).1 then g + 1 else g) p rest
  | CacheOp.put i :: rest =>
    match c.put i with
    | some c2 => runOps c2 g (p + 1) rest
    | none => none

/-- A sequence is valid when every `put` targets an in-range index that
is currently bound (the usage discipline the spec prescribes: one `put`
per completed `get`). -/
def validOps (c : V4L2BufferCache) : List CacheOp → Bool
  | [] => true
  | CacheOp.get b :: rest => validOps (c.get b).2 rest
  | CacheOp.put i :: rest =>
    decide (i < c.cache.length) &&
      ((c.cache.getD i Entry.default).free == false) &&
      validOps ⟨setFree c.cache i, c.missCounter⟩ rest

/-- Counterexample to claim C2 as stated: on a size-1 cache the
sequence get, put 0, put 0, get leaves one bound entry after two
successful gets and two puts, and 1 ≠ 2 − 2.  The second `put` targets
an already-free index, which the code accepts silently. -/
theorem bound_count_counterexample :
    runOps (V4L2BufferCache.ofCount 1) 0 0
        [CacheOp.get ⟨[⟨5, 10⟩]⟩, CacheOp.put 0, CacheOp.put 0,
          CacheOp.get ⟨[⟨5, 10⟩]⟩] =
      some (⟨[⟨false, [⟨5, 10⟩]⟩], 1⟩, 2, 2) ∧
    (V4L2BufferCache.boundCount ⟨[⟨false, [⟨5, 10⟩]⟩], 1⟩) = 1 ∧
    (1 : Int) ≠ (2 : Int) - 2 := by
  refine ⟨by decide, by decide, by decide⟩

theorem boundCount_set_bind (l : List Entry) (u : Nat) (ps : List Plane)
    (h : u < l.length) (hf : (l.getD u Entry.default).free = true) :
    ((l.set u ⟨false, ps⟩).filter (fun e => !e.free)).length =
      (l.filter (fun e => !e.free)).length + 1 := by
  induction l generalizing u with
  | nil => simp at h
  | cons e rest ih =>
    cases u with
    | zero =>
      have he : e.free = true := by simpa [List.getD] using hf
      simp [List.set, List.filter, he]
    | succ n =>
      have hn : n < rest.length := by simpa using Nat.lt_of_succ_lt_succ h
      have hf2 : (rest.getD n Entry.default).free = true := by
        simpa [List.getD] using hf
      have := ih n hn hf2
      by_cases he : e.free <;> simp [List.set, List.filter, he, this]

theorem boundCount_setFree_bound (l : List Entry) (u : Nat)
    (h : u < l.length) (hb : (l.getD u Entry.default).free = false) :
    ((setFree l u).filter (fun e => !e.free)).length + 1 =
      (l.filter (fun e => !e.free)).length := by
  induction l generalizing u with
  | nil => simp at h
  | cons e rest ih =>
    cases u with
    | zero =>
      have he : e.free = false := by simpa [List.getD] using hb
      simp [setFree, List.filter, he]
    | succ n =>
      have hn : n < rest.length := by simpa using Nat.lt_of_succ_lt_succ h
      have hb2 : (rest.getD n Entry.default).free = false := by
        simpa [List.getD] using hb
      have := ih n hn hb2
      by_cases he : e.free <;> simp [setFree, List.filter, he] <;> omega

/-- A successful `get` returns an in-range free index and binds it; a
failed `get` leaves the entries untouched. -/
theorem get_result (c : V4L2BufferCache) (b : FrameBuffer) :
    (0 ≤ (c.get b).1 →
      ∃ u, (c.get b).1 = Int.ofNat u ∧ u < c.cache.length ∧
        (c.cache.getD u Entry.default).free = true ∧
        (c.get b).2.cache = c.cache.set u ⟨false, b.planes⟩) ∧
    ((c.get b).1 < 0 → (c.get b).2.cache = c.cache) := by
  rw [V4L2BufferCache.get_eq]
  cases hfi : firstIdx (hitPred b.planes) c.cache with
  | some i =>
    rcases (firstIdx_eq_some_iff _ _ _).mp hfi with ⟨hlen, hpi, _⟩
    have hfree := ((hitPred_getD c b.planes i).mp hpi).1
    constructor
    · intro _
      exact ⟨i, rfl, hlen, hfree, rfl⟩
    · intro habs
      simp at habs
      omega
  | none =>
    cases hfr : firstIdx freePred c.cache with
    | some i =>
      rcases (firstIdx_eq_some_iff _ _ _).mp hfr with ⟨hlen, hpi, _⟩
      constructor
      · intro _
        exact ⟨i, rfl, hlen, hpi, rfl⟩
      · intro habs
        simp at habs
        omega
    | none =>
      constructor
      · intro habs
        simp at habs
      · intro _
        rfl

/-- The bound-entry accounting invariant along a valid run: the change
in bound count equals successful gets minus puts, and the entry count
is preserved. -/
theorem runOps_invariant (ops : List CacheOp) :
    ∀ c g p c' g' p', validOps c ops = true →
      runOps c g p ops = some (c', g', p') →
      c'.boundCount + p' + g = c.boundCount + g' + p ∧
        c'.cache.length = c.cache.length ∧ g ≤ g' ∧ p ≤ p' := by
  induction ops with
  | nil =>
    intro c g p c' g' p' _ hr
    simp [runOps] at hr
    rcases hr with ⟨h1, h2, h3⟩
    subst h1; subst h2; subst h3
    exact ⟨by omega, rfl, le_refl _, le_refl _⟩
  | cons op rest ih =>
    intro c g p c' g' p' hv hr
    cases op with
    | get b =>
      simp only [runOps] at hr
      simp only [validOps] at hv
      by_cases hs : 0 ≤ (c.get b).1
      · rcases (get_result c b).1 hs with ⟨u, _, hlen, hfree, hcache⟩
        have step := ih (c.get b).2 (g + 1) p c' g' p' hv (by
          rw [if_pos hs] at hr; exact hr)
        have hbc : (c.get b).2.boundCount = c.boundCount + 1 := by
          unfold V4L2BufferCache.boundCount
          rw [hcache]
          exact boundCount_set_bind c.cache u b.planes hlen hfree
        have hlc : (c.get b).2.cache.length = c.cache.length := by
          rw [hcache, List.length_set]
        constructor
        · omega
        · constructor
          · rw [← hlc]; exact step.2.1
          · omega
      · have hneg : (c.get b).1 < 0 := by omega
        have hcache := (get_result c b).2 hneg
        have step := ih (c.get b).2 g p c' g' p' hv (by
          rw [if_neg hs] at hr; exact hr)
        have hbc : (c.get b).2.boundCount = c.boundCount := by
          unfold V4L2BufferCache.boundCount
          rw [hcache]
        have hlc : (c.get b).2.cache.length = c.cache.length := by
          rw [hcache]
        constructor
        · omega
        · constructor
          · rw [← hlc]; exact step.2.1
          · omega
    | put i =>
      simp only [validOps, Bool.and_eq_true, decide_eq_true_eq,
        beq_iff_eq] at hv
      rcases hv with ⟨⟨hlen, hbound⟩, hv⟩
      have hput : c.put i = some ⟨setFree c.cache i, c.missCounter⟩ := by
        simp [V4L2BufferCache.put, hlen]
      simp only [runOps, hput] at hr
      have step := ih ⟨setFree c.cache i, c.missCounter⟩ g (p + 1) c' g' p'
        hv hr
      have hbc : (V4L2BufferCache.mk (setFree c.cache i)
          c.missCounter).boundCount + 1 = c.boundCount := by
        unfold V4L2BufferCache.boundCount
        exact boundCount_setFree_bound c.cache i hlen hbound
      have hlc : (setFree c.cache i).length = c.cache.length :=
        setFree_length c.cache i
      constructor
      · omega
      · constructor
        · rw [← hlc]; exact step.2.1
        · omega

/-- Claim C2 (amended).  For every sequence of get/put operations in
which each `put` targets a currently bound in-range index, at every
point the number of bound entries equals successful gets minus puts,
and never exceeds the cache size `N`.  (As literally stated over all
sequences the claim fails: a `put` on an already-free index is a silent
no-op that breaks the accounting; see the counterexample.) -/
theorem bound_count_spec (ops : List CacheOp) (N : Nat)
    (c' : V4L2BufferCache) (g' p' : Nat)
    (hv : validOps (V4L2BufferCache.ofCount N) ops = true)
    (hr : runOps (V4L2BufferCache.ofCount N) 0 0 ops = some (c', g', p')) :
    c'.boundCount + p' = g' ∧ c'.boundCount ≤ N := by
  have h := runOps_invariant ops (V4L2BufferCache.ofCount N) 0 0 c' g' p'
    hv hr
  have h0 : (V4L2BufferCache.ofCount N).boundCount = 0 := by
    unfold V4L2BufferCache.boundCount V4L2BufferCache.ofCount
    simp [List.filter_replicate, Entry.default]
  have hlen : (V4L2BufferCache.ofCount N).cache.length = N := by
    simp [V4L2BufferCache.ofCount]
  have hle : c'.boundCount ≤ c'.cache.length :=
    List.length_filter_le _ _
  constructor
  · omega
  · omega

/-- Witness for C2: the valid sequence get, put 0, get on a size-1
cache ends with one bound entry, two successful gets and one put. -/
theorem bound_count_spec_witness :
    (validOps (V4L2BufferCache.ofCount 1)
        [CacheOp.get ⟨[⟨5, 10⟩]⟩, CacheOp.put 0,
          CacheOp.get ⟨[⟨5, 10⟩]⟩] = true) ∧
    (V4L2BufferCache.boundCount ⟨[⟨false, [⟨5, 10⟩]⟩], 1⟩ + 1 = 2 ∧
      V4L2BufferCache.boundCount ⟨[⟨false, [⟨5, 10⟩]⟩], 1⟩ ≤ 1) :=
  ⟨by decide,
    bound_count_spec [CacheOp.get ⟨[⟨5, 10⟩]⟩, CacheOp.put 0,
        CacheOp.get ⟨[⟨5, 10⟩]⟩] 1 ⟨[⟨false, [⟨5, 10⟩]⟩], 1⟩ 2 1
      (by decide) (by decide)⟩

/-- `FrameMetadata::Status`: capture completion status of a buffer. -/
inductive FrameStatus where
  | success
  | error
  | cancelled
deriving DecidableEq, Repr

/-- Streaming-side state of a `V4L2VideoDevice`: the buffer cache, the
in-flight map `queuedBuffers_` (a `std::map` from V4L2 buffer index to
the queued buffer's identity, kept sorted by index), and the
event-notifier enablement. -/
structure StreamState where
  cache : V4L2BufferCache
  queuedBuffers : List (Nat × Nat)
  fdEventEnabled : Bool
deriving DecidableEq, Repr

/-- `V4L2VideoDevice::streamOff`, parametrised by the `STREAMOFF` ioctl
result.  On ioctl failure nothing happens.  On success every in-flight
buffer is stamped `FrameCancelled` and emitted on `bufferReady` (the
returned list, in map order), then the in-flight map is cleared and the
notifier disabled.  The cache is not touched. -/
def streamOff (ioctlRet : Int) (s : StreamState) :
    Int × StreamState × List (Nat × FrameStatus) :=
  if ioctlRet < 0 then (ioctlRet, s, [])
  else
    (0, ⟨s.cache, [], false⟩,
      s.queuedBuffers.map (fun ib => (ib.2, FrameStatus.cancelled)))

/-- `std::map::operator[]` assignment on the in-flight map: insert the
key in sorted position, or overwrite an existing key. -/
def insertAssoc (k v : Nat) : List (Nat × Nat) → List (Nat × Nat)
  | [] => [(k, v)]
  | (k2, v2) :: rest =>
    if k < k2 then (k, v) :: (k2, v2) :: rest
    else if k = k2 then (k, v) :: rest
    else (k2, v2) :: insertAssoc k v rest

/-- `V4L2VideoDevice::queueBuffer`, parametrised by the `QBUF` ioctl
result.  The cache lookup happens first; a negative result is returned
before any ioctl (the returned `Bool` records whether `QBUF` was
issued).  On a successful queue the notifier is enabled when the
in-flight map was empty, and the buffer is recorded in flight under the
chosen index. -/
def queueBuffer (qbufRet : Int) (s : StreamState) (b : FrameBuffer)
    (bufId : Nat) : Int × StreamState × Bool :=
  let r := s.cache.get b
  if r.1 < 0 then (r.1, ⟨r.2, s.queuedBuffers, s.fdEventEnabled⟩, false)
  else if qbufRet < 0 then
    (qbufRet, ⟨r.2, s.queuedBuffers, s.fdEventEnabled⟩, true)
  else
    (0, ⟨r.2, insertAssoc r.1.toNat bufId s.queuedBuffers,
      if s.queuedBuffers.isEmpty then true else s.fdEventEnabled⟩, true)

/-- Claim C4.  After a successful `streamOff`, the in-flight set is
empty, the event notifier is disabled, and every buffer that was in
flight is delivered exactly once on the completion channel with
cancelled status — a status distinct from error and success. -/
theorem streamOff_spec (s : StreamState) (ret : Int) (h : 0 ≤ ret) :
    (streamOff ret s).1 = 0 ∧
    (streamOff ret s).2.1.queuedBuffers = [] ∧
    (streamOff ret s).2.1.fdEventEnabled = false ∧
    (streamOff ret s).2.2 =
      s.queuedBuffers.map (fun ib => (ib.2, FrameStatus.cancelled)) ∧
    (∀ e ∈ (streamOff ret s).2.2, e.2 = FrameStatus.cancelled) ∧
    ((s.queuedBuffers.map Prod.snd).Nodup →
      ∀ bid ∈ s.queuedBuffers.map Prod.snd,
        ((streamOff ret s).2.2.map Prod.fst).count bid = 1) ∧
    FrameStatus.cancelled ≠ FrameStatus.error ∧
    FrameStatus.cancelled ≠ FrameStatus.success := by
  have hni : ¬ ret < 0 := by omega
  have hmap : ((s.queuedBuffers.map
      (fun ib => (ib.2, FrameStatus.cancelled))).map Prod.fst) =
      s.queuedBuffers.map Prod.snd := by
    rw [List.map_map]
    rfl
  refine ⟨by simp [streamOff, hni], by simp [streamOff, hni],
    by simp [streamOff, hni], by simp [streamOff, hni], ?_, ?_,
    by decide, by decide⟩
  · intro e he
    simp [streamOff, hni] at he
    rcases he with ⟨a, ha, hb, hc⟩
    rw [← hc]
  · intro hnd bid hbid
    have : (streamOff ret s).2.2 =
        s.queuedBuffers.map (fun ib => (ib.2, FrameStatus.cancelled)) := by
      simp [streamOff, hni]
    rw [this, hmap]
    exact List.count_eq_one_of_mem hnd hbid

/-- Witness for C4: a device with two in-flight buffers; `streamOff`
with a successful ioctl clears the set, disables the notifier, and
emits both as cancelled. -/
theorem streamOff_spec_witness :
    (0 : Int) ≤ 0 ∧
    (streamOff 0 ⟨V4L2BufferCache.ofCount 2, [(0, 11), (1, 12)], true⟩).2.2 =
      [(11, FrameStatus.cancelled), (12, FrameStatus.cancelled)] :=
  ⟨le_refl 0,
    (streamOff_spec ⟨V4L2BufferCache.ofCount 2, [(0, 11), (1, 12)], true⟩ 0
      (le_refl 0)).2.2.2.1⟩

/-- `get` never returns a bound index: the returned index was free
before the call. -/
theorem get_returns_free (c : V4L2BufferCache) (b : FrameBuffer) (i : Nat)
    (h : (c.get b).1 = Int.ofNat i) :
    i < c.cache.length ∧ (c.cache.getD i Entry.default).free = true := by
  have h0 : 0 ≤ (c.get b).1 := by rw [h]; exact Int.ofNat_nonneg i
  rcases (get_result c b).1 h0 with ⟨u, hu, hlen, hfree, _⟩
  have : u = i := by
    rw [hu] at h
    exact Int.ofNat.inj h
  rw [this] at hlen hfree
  exact ⟨hlen, hfree⟩

/-- Claim C9.  `streamOff` leaves the buffer cache unchanged — no `put`
is issued for in-flight indices — so indices bound at stop time remain
bound and can never be returned by a subsequent `get`; only the
in-flight map and the notifier enablement change in the device state. -/
theorem streamOff_cache_preserved (s : StreamState) (ret : Int)
    (h : 0 ≤ ret) :
    (streamOff ret s).2.1.cache = s.cache ∧
    (streamOff ret s).2.1 = ⟨s.cache, [], false⟩ ∧
    (∀ i, i < s.cache.cache.length →
      (s.cache.cache.getD i Entry.default).free = false →
      ∀ b, (((streamOff ret s).2.1.cache).get b).1 ≠ Int.ofNat i) := by
  have hni : ¬ ret < 0 := by omega
  refine ⟨by simp [streamOff, hni], by simp [streamOff, hni], ?_⟩
  intro i hlen hbound b habs
  have hcache : (streamOff ret s).2.1.cache = s.cache := by
    simp [streamOff, hni]
  rw [hcache] at habs
  have := (get_returns_free s.cache b i habs).2
  rw [this] at hbound
  exact absurd hbound (by simp)

/-- Witness for C9: a device whose cache has index 0 bound; after a
successful `streamOff` the cache is untouched and `get` for a fresh
buffer cannot return index 0. -/
theorem streamOff_cache_preserved_witness :
    (0 : Int) ≤ 0 ∧
    (streamOff 0 ⟨⟨[⟨false, [⟨9, 1⟩]⟩], 0⟩, [(0, 11)], true⟩).2.1.cache =
      ⟨[⟨false, [⟨9, 1⟩]⟩], 0⟩ :=
  ⟨le_refl 0,
    (streamOff_cache_preserved ⟨⟨[⟨false, [⟨9, 1⟩]⟩], 0⟩, [(0, 11)], true⟩ 0
      (le_refl 0)).1⟩

/-- Claim C6.  When every cache entry is bound, `queueBuffer` returns
`-ENOENT` (= `-2`) from the cache lookup before issuing any `QBUF`
ioctl, and neither the in-flight set nor the event registration
changes. -/
theorem get_no_free (c : V4L2BufferCache) (b : FrameBuffer)
    (h : ∀ j, j < c.cache.length →
      (c.cache.getD j Entry.default).free = false) :
    c.get b = (-2, ⟨c.cache, c.missCounter + 1⟩) := by
  have hfr : firstIdx freePred c.cache = none := by
    rw [firstIdx_eq_none_iff]
    intro j hj
    simpa [freePred] using h j hj
  have hfi : firstIdx (hitPred b.planes) c.cache = none := by
    rw [firstIdx_eq_none_iff]
    intro j hj
    simp only [hitPred, h j hj, Bool.false_and]
  rw [V4L2BufferCache.get_eq, hfi, hfr]

theorem queueBuffer_backpressure (s : StreamState) (b : FrameBuffer)
    (bufId : Nat) (qbufRet : Int)
    (h : ∀ i, i < s.cache.cache.length →
      (s.cache.cache.getD i Entry.default).free = false) :
    (queueBuffer qbufRet s b bufId).1 = -2 ∧
    (queueBuffer qbufRet s b bufId).2.2 = false ∧
    (queueBuffer qbufRet s b bufId).2.1.queuedBuffers = s.queuedBuffers ∧
    (queueBuffer qbufRet s b bufId).2.1.fdEventEnabled =
      s.fdEventEnabled := by
  have hget := get_no_free s.cache b h
  have hneg : (s.cache.get b).1 < 0 := by rw [hget]; simp
  refine ⟨?_, ?_, ?_, ?_⟩ <;>
    simp [queueBuffer, hneg, hget]

/-- Witness for C6: a single fully-bound entry; `queueBuffer` returns
the backpressure condition without issuing the queue ioctl. -/
theorem queueBuffer_backpressure_witness :
    (∀ i, i < (V4L2BufferCache.mk [⟨false, []⟩] 0).cache.length →
      ((V4L2BufferCache.mk [⟨false, []⟩] 0).cache.getD i
        Entry.default).free = false) ∧
    (queueBuffer 0 ⟨⟨[⟨false, []⟩], 0⟩, [], false⟩ ⟨[⟨8, 2⟩]⟩ 5).1 = -2 :=
  ⟨by decide,
    (queueBuffer_backpressure ⟨⟨[⟨false, []⟩], 0⟩, [], false⟩ ⟨[⟨8, 2⟩]⟩ 5 0
      (by decide)).1⟩

/-- Kernel-side responses for the buffer-allocation ioctls, indexed per
requested count, buffer index and plane:  `REQBUFS` return code and
granted count, `QUERYBUF` return code and plane layout, `EXPBUF` return
code and exported descriptor. -/
structure ExportKernel where
  reqRet : Nat → Int
  reqCount : Nat → Nat
  queryRet : Nat → Int
  queryNumPlanes : Nat → Nat
  querySingleLength : Nat → Nat
  queryPlaneLength : Nat → Nat → Nat
  expRet : Nat → Nat → Int
  expFd : Nat → Nat → Int

/-- The nested `requestBuffers(0)` call made on a short grant; its own
result is discarded by the caller.  Alongside the return code, the list
records the `REQBUFS` counts issued. -/
def requestBuffersZero (k : ExportKernel) : Int × List Nat :=
  if k.reqRet 0 < 0 then (k.reqRet 0, [0]) else (0, [0])

/-- `V4L2VideoDevice::requestBuffers(count)`: issues `REQBUFS`; on a
negative ioctl result propagates it; when fewer buffers than requested
are granted, releases them again with a zero-count request and returns
`-ENOMEM` (= `-12`). -/
def requestBuffers (k : ExportKernel) (count : Nat) : Int × List Nat :=
  if k.reqRet count < 0 then (k.reqRet count, [count])
  else if k.reqCount count < count then
    (-12, count :: (requestBuffersZero k).2)
  else (0, [count])

/-- `V4L2VideoDevice::exportDmabufFd`: `EXPBUF` for one plane; an ioctl
failure yields an invalid descriptor (`none`). -/
def exportDmabufFd (k : ExportKernel) (index plane : Nat) : Option Int :=
  if k.expRet index plane < 0 then none else some (k.expFd index plane)

/-- One plane of `createBuffer`: the exported descriptor plus the
kernel-reported plane length (per-plane for the multi-planar API, the
whole `buf.length` for the single-planar API). -/
def mkPlane (k : ExportKernel) (mp : Bool) (index nplane : Nat) :
    Option Plane :=
  match exportDmabufFd k index nplane with
  | none => none
  | some fd =>
    some ⟨fd, if mp then k.queryPlaneLength index nplane
      else k.querySingleLength index⟩

/-- Collect optional planes, failing when any fails. -/
def mapOpt (f : Nat → Option Plane) : List Nat → Option (List Plane)
  | [] => some []
  | x :: xs =>
    match f x, mapOpt f xs with
    | some p, some ps => some (p :: ps)
    | _, _ => none

/-- The plane count `createBuffer` derives from the queried buffer:
`buf.length` for the multi-planar API, 1 otherwise. -/
def numPlanesOf (k : ExportKernel) (mp : Bool) (index : Nat) : Nat :=
  if mp then k.queryNumPlanes index else 1

/-- `V4L2VideoDevice::createBuffer`: rejects an impossible plane count
(0 or above `VIDEO_MAX_PLANES` = 8), then exports one descriptor per
plane. -/
def createBuffer (k : ExportKernel) (mp : Bool) (index : Nat) :
    Option FrameBuffer :=
  let numPlanes := numPlanesOf k mp index
  if numPlanes = 0 ∨ numPlanes > 8 then none
  else (mapOpt (mkPlane k mp index) (List.range numPlanes)).map FrameBuffer.mk

/-- The `QUERYBUF`/`createBuffer` loop of `exportBuffers`, pushing each
created buffer onto the output vector and stopping at the first
failure with its error code. -/
def exportLoop (k : ExportKernel) (mp : Bool) :
    List Nat → List FrameBuffer → Except Int (List FrameBuffer)
  | [], acc => Except.ok acc
  | i :: rest, acc =>
    if k.queryRet i < 0 then Except.error (k.queryRet i)
    else
      match createBuffer k mp i with
      | none => Except.error (-22)
      | some buf => exportLoop k mp rest (acc ++ [buf])

/-- Allocation-side state of a `V4L2VideoDevice`: the owned cache
pointer (`nullptr` modelled as `none`). -/
structure AllocState where
  cache : Option V4L2BufferCache
deriving DecidableEq, Repr

/-- `V4L2VideoDevice::exportBuffers(count, buffers)`: fails with
`-EINVAL` (= `-22`) when a cache already exists; otherwise requests
`count` buffers, queries and dmabuf-exports each, and on success
creates the cache from the output vector and returns `count`.  On any
failure after the request it issues a zero-count `REQBUFS` rollback and
clears the whole output vector.  The last component records the
`REQBUFS` counts issued. -/
def exportBuffers (k : ExportKernel) (mp : Bool) (count : Nat)
    (s : AllocState) (outVec : List FrameBuffer) :
    Int × AllocState × List FrameBuffer × List Nat :=
  match s.cache with
  | some _ => (-22, s, outVec, [])
  | none =>
    let rq := requestBuffers k count
    if rq.1 < 0 then (rq.1, s, outVec, rq.2)
    else
      match exportLoop k mp (List.range count) outVec with
      | Except.error e => (e, s, [], rq.2 ++ (requestBuffersZero k).2)
      | Except.ok bufs =>
        (Int.ofNat count, ⟨some (V4L2BufferCache.ofBuffers bufs)⟩, bufs,
          rq.2)

/-- `V4L2VideoDevice::releaseBuffers`: deletes the cache (a no-op on
`nullptr`), resets the pointer, and issues a zero-count buffer
request. -/
def releaseBuffers (k : ExportKernel) (_s : AllocState) :
    Int × AllocState × List Nat :=
  ((requestBuffers k 0).1, ⟨none⟩, (requestBuffers k 0).2)

theorem exportLoop_error_neg (k : ExportKernel) (mp : Bool) :
    ∀ (idxs : List Nat) (acc : List FrameBuffer) (e : Int),
      exportLoop k mp idxs acc = Except.error e → e < 0 := by
  intro idxs
  induction idxs with
  | nil =>
    intro acc e h
    simp [exportLoop] at h
  | cons i rest ih =>
    intro acc e h
    by_cases hq : k.queryRet i < 0
    · simp [exportLoop, hq] at h
      omega
    · simp only [exportLoop, hq, if_false] at h
      cases hc : createBuffer k mp i with
      | none =>
        rw [hc] at h
        simp at h
        omega
      | some buf =>
        rw [hc] at h
        exact ih (acc ++ [buf]) e h

theorem exportLoop_ok (k : ExportKernel) (mp : Bool) :
    ∀ (idxs : List Nat) (acc bufs : List FrameBuffer),
      exportLoop k mp idxs acc = Except.ok bufs →
      ∃ new, bufs = acc ++ new ∧ new.length = idxs.length ∧
        ∀ n, n < idxs.length →
          createBuffer k mp (idxs.getD n 0) = some (new.getD n ⟨[]⟩) := by
  intro idxs
  induction idxs with
  | nil =>
    intro acc bufs h
    simp [exportLoop] at h
    exact ⟨[], by simp [h], rfl, by intro n hn; simp at hn⟩
  | cons i rest ih =>
    intro acc bufs h
    by_cases hq : k.queryRet i < 0
    · simp [exportLoop, hq] at h
    · simp only [exportLoop, hq, if_false] at h
      cases hc : createBuffer k mp i with
      | none =>
        rw [hc] at h
        simp at h
      | some buf =>
        rw [hc] at h
        rcases ih (acc ++ [buf]) bufs h with ⟨new, hb, hlen, hidx⟩
        refine ⟨buf :: new, ?_, by simp [hlen], ?_⟩
        · rw [hb, List.append_assoc]
          rfl
        · intro n hn
          cases n with
          | zero => simpa [List.getD] using hc
          | succ m =>
            have := hidx m (by simpa using Nat.lt_of_succ_lt_succ hn)
            simpa [List.getD] using this

theorem mapOpt_length (f : Nat → Option Plane) :
    ∀ (l : List Nat) (r : List Plane), mapOpt f l = some r →
      r.length = l.length := by
  intro l
  induction l with
  | nil =>
    intro r h
    simp [mapOpt] at h
    simp [← h]
  | cons x xs ih =>
    intro r h
    simp only [mapOpt] at h
    cases hx : f x with
    | none => rw [hx] at h; simp at h
    | some p =>
      rw [hx] at h
      cases hxs : mapOpt f xs with
      | none => rw [hxs] at h; simp at h
      | some ps =>
        rw [hxs] at h
        simp at h
        rw [← h]
        simp [ih ps hxs]

theorem createBuffer_planes (k : ExportKernel) (mp : Bool) (index : Nat)
    (buf : FrameBuffer) (h : createBuffer k mp index = some buf) :
    buf.planes.length = numPlanesOf k mp index := by
  unfold createBuffer at h
  by_cases hbad : numPlanesOf k mp index = 0 ∨ numPlanesOf k mp index > 8
  · simp [hbad] at h
  · simp only [hbad, if_false] at h
    cases hm : mapOpt (mkPlane k mp index)
        (List.range (numPlanesOf k mp index)) with
    | none => rw [hm] at h; simp at h
    | some ps =>
      rw [hm] at h
      simp at h
      have := mapOpt_length (mkPlane k mp index) _ ps hm
      rw [← h]
      simpa using this

theorem requestBuffersZero_trace (k : ExportKernel) :
    (requestBuffersZero k).2 = [0] := by
  unfold requestBuffersZero
  by_cases h : k.reqRet 0 < 0 <;> simp [h]

theorem requestBuffers_zero_trace (k : ExportKernel) :
    (requestBuffers k 0).2 = [0] := by
  unfold requestBuffers
  by_cases h : k.reqRet 0 < 0 <;> simp [h]

/-- Claim C5.  `exportBuffers(count)` with buffers already allocated
fails with `-EINVAL` and changes nothing.  On a fresh device it either
succeeds — returning exactly `count` buffers, each with the plane count
the kernel reported for its index, and creating the cache from them —
or fails atomically: the output vector is cleared, no cache is created,
and all previously requested buffers are released (the ioctl trace is
either just the initial request, or ends with a zero-count request). -/
theorem exportBuffers_spec (k : ExportKernel) (mp : Bool) (count : Nat) :
    (∀ c, exportBuffers k mp count ⟨some c⟩ [] =
      (-22, ⟨some c⟩, [], [])) ∧
    (0 ≤ (exportBuffers k mp count ⟨none⟩ []).1 →
      (exportBuffers k mp count ⟨none⟩ []).1 = Int.ofNat count ∧
      (exportBuffers k mp count ⟨none⟩ []).2.2.1.length = count ∧
      (∀ n, n < count →
        ((exportBuffers k mp count ⟨none⟩ []).2.2.1.getD n
            ⟨[]⟩).planes.length = numPlanesOf k mp n) ∧
      (exportBuffers k mp count ⟨none⟩ []).2.1.cache =
        some (V4L2BufferCache.ofBuffers
          (exportBuffers k mp count ⟨none⟩ []).2.2.1)) ∧
    ((exportBuffers k mp count ⟨none⟩ []).1 < 0 →
      (exportBuffers k mp count ⟨none⟩ []).2.2.1 = [] ∧
      (exportBuffers k mp count ⟨none⟩ []).2.1.cache = none ∧
      ((exportBuffers k mp count ⟨none⟩ []).2.2.2 = [count] ∨
        (exportBuffers k mp count ⟨none⟩ []).2.2.2.getLast? = some 0)) := by
  refine ⟨fun c => rfl, ?_, ?_⟩
  · intro h
    by_cases hrq : (requestBuffers k count).1 < 0
    · simp only [exportBuffers, hrq, if_true] at h
      exact absurd h (by omega)
    · simp only [exportBuffers, hrq, if_false] at h ⊢
      cases hl : exportLoop k mp (List.range count) [] with
      | error e =>
        have hneg := exportLoop_error_neg k mp _ _ _ hl
        simp only [hl] at h
        exact absurd h (by omega)
      | ok bufs =>
        rcases exportLoop_ok k mp _ _ _ hl with ⟨new, hb, hlen, hidx⟩
        have hbufs : bufs = new := by simpa using hb
        simp only [hl]
        refine ⟨by trivial, ?_, ?_, by trivial⟩
        · rw [hbufs, hlen]
          simp
        · intro n hn
          have hn2 : n < (List.range count).length := by simpa using hn
          have hcb := hidx n hn2
          have hget : (List.range count).getD n 0 = n := by
            simp [List.getD, List.getElem?_range hn]
          rw [hget] at hcb
          rw [hbufs]
          exact createBuffer_planes k mp n _ hcb
  · intro h
    by_cases hrq : (requestBuffers k count).1 < 0
    · simp only [exportBuffers, hrq, if_true]
      refine ⟨by trivial, by trivial, ?_⟩
      unfold requestBuffers at hrq ⊢
      by_cases hr0 : k.reqRet count < 0
      · simp [hr0]
      · by_cases hrc : k.reqCount count < count
        · simp [hr0, hrc, requestBuffersZero_trace]
        · simp [hr0, hrc] at hrq
    · simp only [exportBuffers, hrq, if_false] at h ⊢
      cases hl : exportLoop k mp (List.range count) [] with
      | error e =>
        simp only [hl]
        refine ⟨by trivial, by trivial, Or.inr (by
          rw [requestBuffersZero_trace]
          simp)⟩
      | ok bufs =>
        simp only [hl] at h
        exact absurd h (Int.not_lt.mpr (Int.ofNat_nonneg count))

/-- A kernel that grants every request: one buffer export succeeds with
two planes per buffer. -/
def demoKernel : ExportKernel :=
  ⟨fun _ => 0, fun n => n, fun _ => 0, fun _ => 2, fun _ => 100,
    fun _ _ => 50, fun _ _ => 0, fun i p => Int.ofNat (10 + i + p)⟩

/-- Witness for C5: on a fresh device `exportBuffers(1)` succeeds and
returns exactly one buffer. -/
theorem exportBuffers_spec_witness :
    0 ≤ (exportBuffers demoKernel true 1 ⟨none⟩ []).1 ∧
    (exportBuffers demoKernel true 1 ⟨none⟩ []).2.2.1.length = 1 :=
  ⟨by decide, ((exportBuffers_spec demoKernel true 1).2.1 (by decide)).2.1⟩

/-- Claim C8.  `releaseBuffers` is idempotent: a second call yields the
same return value, end state and ioctl trace as the first; calling it
on an unallocated device is safe; afterwards no cache exists and a
zero-count buffer request has been issued. -/
theorem releaseBuffers_spec (k : ExportKernel) (s : AllocState) :
    releaseBuffers k (releaseBuffers k s).2.1 = releaseBuffers k s ∧
    (releaseBuffers k s).2.1.cache = none ∧
    (releaseBuffers k ⟨none⟩).2.1.cache = none ∧
    (releaseBuffers k s).2.2 = [0] :=
  ⟨rfl, rfl, rfl, requestBuffers_zero_trace k⟩

/-- `struct v4l2_meta_format`: the fields the meta codec reads and
writes. -/
structure V4l2MetaFormat where
  dataformat : Nat
  buffersize : Nat
deriving DecidableEq, Repr

/-- One plane of a `V4L2DeviceFormat`: line stride and byte size. -/
structure PlaneFmt where
  bpl : Nat
  size : Nat
deriving DecidableEq, Repr

/-- `V4L2DeviceFormat`: resolution, fourcc and plane layout. -/
structure V4L2DeviceFormat where
  width : Nat
  height : Nat
  fourcc : Nat
  planesCount : Nat
  planes : List PlaneFmt
deriving DecidableEq, Repr

/-- `V4L2VideoDevice::setFormatMeta`, parametrised by the `S_FMT` ioctl
result and by the driver's adjustment of the written
`v4l2_meta_format`.  The read-back block sets width and height to 0,
copies `pix->buffersize` into plane 0's stride and size — but assigns
`format->fourcc = format->fourcc` (the requested value, a
self-assignment in the source) instead of reading back
`pix->dataformat`, although the comment above that block says the
actually-applied format is returned. -/
def setFormatMeta (ioctlRet : Int)
    (driver : V4l2MetaFormat → V4l2MetaFormat)
    (format : V4L2DeviceFormat) : Int × V4L2DeviceFormat :=
  let pix := driver ⟨format.fourcc, (format.planes.getD 0 ⟨0, 0⟩).size⟩
  if ioctlRet < 0 then (ioctlRet, format)
  else
    (0, ⟨0, 0, format.fourcc, 1,
      format.planes.set 0 ⟨pix.buffersize, pix.buffersize⟩⟩)

/-- A driver that accepts the requested buffer size but adjusts the
meta data format to 200. -/
def metaDriverAdjusting : V4l2MetaFormat → V4l2MetaFormat :=
  fun w => ⟨200, w.buffersize⟩

/-- Claim C7 fails on the meta variant: the driver adjusts the data
format from the requested 100 to 200, yet the returned format still
carries fourcc 100 — `setFormatMeta` echoes the caller's requested
fourcc instead of the value the device accepted, contradicting the
read-back comment in the source. -/
theorem setFormatMeta_fourcc_bug :
    (setFormatMeta 0 metaDriverAdjusting
        ⟨0, 0, 100, 1, [⟨0, 4096⟩, ⟨0, 0⟩, ⟨0, 0⟩]⟩).2.fourcc = 100 ∧
    (metaDriverAdjusting ⟨100, 4096⟩).dataformat = 200 ∧
    (100 : Nat) ≠ 200 := by
  decide
